import Mathlib

/-!
Shallow embedding of `src/streamlit_app.py` (team / skill / competency
management app).  Python dicts are modelled as insertion-ordered association
lists (`List (String × β)`): lookup returns the first matching key, updating
an existing key keeps its position, and inserting a fresh key appends at the
end — exactly the observable behaviour of a Python `dict`.
-/

namespace Scradar

/-- Dict lookup: first entry whose key matches, as Python `d[k]` / `k in d`. -/
def getKey? {β : Type} (k : String) : List (String × β) → Option β
  | [] => none
  | e :: rest => if e.1 = k then some e.2 else getKey? k rest

/-- Dict update `d[k] = v`: overwrite in place if the key is present,
append at the end otherwise (Python dict insertion order). -/
def setKey {β : Type} (k : String) (v : β) : List (String × β) → List (String × β)
  | [] => [(k, v)]
  | e :: rest => if e.1 = k then (k, v) :: rest else e :: setKey k v rest

/-- Dict deletion `del d[k]`: drop the first entry with the given key. -/
def eraseKey {β : Type} (k : String) : List (String × β) → List (String × β)
  | [] => []
  | e :: rest => if e.1 = k then rest else e :: eraseKey k rest

/-- Keys of a dict, in order. -/
def keysOf {β : Type} (l : List (String × β)) : List String :=
  l.map Prod.fst

/-- Number of entries of an association list carrying a given key
(1 for every key of a Python dict, at most 1 in well-formed states). -/
def countKey {β : Type} (k : String) (l : List (String × β)) : Nat :=
  l.countP (fun e => e.1 == k)

/-- Competency mapping of one member: skill name → recorded level
(sparse: a missing key means "unscored", not zero). -/
abbrev Competency := List (String × Nat)

/-- Members dict of a team: member name → competency mapping. -/
abbrev Members := List (String × Competency)

/-- One team: its `"members"` dict and its `"skills"` dict
(category name → ordered skill list), as built by `add_team`. -/
structure Team where
  members : Members
  skills : List (String × List String)
deriving DecidableEq, Repr

/-- The session state `st.session_state.teams`: team name → team. -/
abbrev AppState := List (String × Team)

/-- Kind of message the app shows for an operation
(`st.success` / `st.warning` / `st.error`). -/
inductive Msg
  | success
  | warning
  | error
deriving DecidableEq, Repr

/-- Default skills for each category (source lines 13–17). -/
def DEFAULT_SKILLS : List (String × List String) :=
  [("Technical", ["Databricks", "Python", "NodeJS", "SQL", "Gitlab"]),
   ("Domain", ["LM", "SM", "in vitro", "in vivo", "target"]),
   ("Operational", ["SAFe", "Collab", "Comms", "SNOW", "Monitoring and Tracking"])]

/-- Embedding of `add_team` (lines 20–34), applied to a submitted name.
Python truthiness of a string is non-emptiness, so the guard
`if team_name and team_name not in st.session_state.teams` becomes
`name ≠ "" ∧ lookup = none`; a fresh dict key is appended at the end. -/
def add_team (name : String) (st : AppState) : AppState × Msg :=
  if name ≠ "" ∧ getKey? name st = none then
    (st ++ [(name, { members := [], skills := DEFAULT_SKILLS })], Msg.success)
  else if (getKey? name st).isSome then
    (st, Msg.warning)
  else
    (st, Msg.error)

/-- Model of Python `str.strip()`: drop whitespace from both ends. -/
def strip (s : String) : String :=
  (((s.toList.dropWhile Char.isWhitespace).reverse.dropWhile
      Char.isWhitespace).reverse).asString

/-- Splitting a character list at every `','` or `'\n'`.  The source first
does `input.replace("\n", ",")` and then `.split(",")`; replacing `'\n'`
by `','` and splitting on `','` is the same as splitting on either char. -/
def splitNames : List Char → List (List Char)
  | [] => [[]]
  | c :: rest =>
    if c = ',' ∨ c = '\n' then
      [] :: splitNames rest
    else
      match splitNames rest with
      | [] => [[c]]
      | p :: ps => (c :: p) :: ps

/-- Embedding of the name parsing of `add_members` / `add_skills`
(lines 41 and 55): split on commas and newlines, strip each piece,
keep the non-empty ones. -/
def parseNames (input : String) : List String :=
  ((splitNames input.toList).map (fun cs => strip cs.asString)).filter
    (fun s => s != "")

/-- The member-adding loop of `add_members` (lines 42–44): each parsed name
that is non-empty and not yet a member is added with an empty competency
dict (a fresh key appends at the end of the dict). -/
def addMemberNames (names : List String) (ms : Members) : Members :=
  names.foldl
    (fun ms n =>
      if n ≠ "" ∧ getKey? n ms = none then ms ++ [(n, [])] else ms)
    ms

/-- Embedding of `add_members` (lines 37–47) applied to a submitted text.
Result `none` models the `KeyError` raised when the loop body touches a
missing team (never reached by the app, which only passes existing teams);
empty input is the `st.error` branch, and an input that parses to no names
never touches the team dict and reports success. -/
def add_members (team_name input : String) (st : AppState) :
    Option (AppState × Msg) :=
  if input = "" then
    some (st, Msg.error)
  else
    let names := parseNames input
    if names.isEmpty then
      some (st, Msg.success)
    else
      match getKey? team_name st with
      | none => none
      | some t =>
        some (setKey team_name
                { t with members := addMemberNames names t.members } st,
              Msg.success)

/-- The skill-adding loop of `add_skills` (lines 56–58): each parsed name
that is non-empty and not already in the category's list is appended. -/
def addSkillNames (names : List String) (sks : List String) : List String :=
  names.foldl
    (fun sks n => if n ≠ "" ∧ n ∉ sks then sks ++ [n] else sks)
    sks

/-- Embedding of `add_skills` (lines 50–61) for one category's text box and
button.  Result `none` models the `KeyError` on a missing team or category
key (never reached by the app). -/
def add_skills (team_name category input : String) (st : AppState) :
    Option (AppState × Msg) :=
  if input = "" then
    some (st, Msg.error)
  else
    let names := parseNames input
    if names.isEmpty then
      some (st, Msg.success)
    else
      match getKey? team_name st with
      | none => none
      | some t =>
        match getKey? category t.skills with
        | none => none
        | some sks =>
          some (setKey team_name
                  { t with skills :=
                      setKey category (addSkillNames names sks) t.skills } st,
                Msg.success)

/-- Inner loop of `assign_competency` (lines 72–79) for one skill: every
member's dict gets `members[member][skill] = slider value`, where the
slider for a given member and skill holds a value the widget keeps in
`[0, 10]` (default 0).  `sliders m s` is the current value of the slider
keyed `f"{team}_{m}_{s}"`. -/
def assignSkill (sliders : String → String → Nat) (sk : String)
    (ms : Members) : Members :=
  ms.map (fun e => (e.1, setKey sk (sliders e.1 sk) e.2))

/-- The category/skill double loop of `assign_competency` (lines 69–79). -/
def assignAll (sliders : String → String → Nat)
    (cats : List (String × List String)) (ms : Members) : Members :=
  cats.foldl (fun ms p => p.2.foldl (fun ms2 sk => assignSkill sliders sk ms2) ms) ms

/-- Embedding of `assign_competency` (lines 64–79) on one team.  The guard
`if not any(...skills.values())` returns unchanged (with a warning) when
every category's skill list is empty; otherwise every member gets the
slider value recorded for every skill of every category. -/
def assign_competency (sliders : String → String → Nat) (t : Team) : Team :=
  if t.skills.all (fun p => p.2.isEmpty) then
    t
  else
    { t with members := assignAll sliders t.skills t.members }

/-- Lifting of `assign_competency` to the session state: the page runs it
on `st.session_state.teams[team_name]` (a `KeyError`, modelled as `none`,
if the team is missing — never reached by the app). -/
def assign_competency_state (team_name : String)
    (sliders : String → String → Nat) (st : AppState) : Option AppState :=
  match getKey? team_name st with
  | none => none
  | some t => some (setKey team_name (assign_competency sliders t) st)

/-- Embedding of team deletion (line 154): `del st.session_state.teams[n]`. -/
def delete_team (team_name : String) (st : AppState) : AppState :=
  eraseKey team_name st

/-- The list comprehension of lines 92–96: levels recorded for a skill, in
member order, by members that have an entry for it (absent ≠ zero). -/
def competenciesFor (members : Members) (skill : String) : List Nat :=
  members.filterMap (fun e => getKey? skill e.2)

/-- Python `min` of a non-empty list, fed head and tail. -/
def pyMin (x : Nat) (xs : List Nat) : Nat :=
  xs.foldl Nat.min x

/-- Python `max` of a non-empty list, fed head and tail. -/
def pyMax (x : Nat) (xs : List Nat) : Nat :=
  xs.foldl Nat.max x

/-- Python `sum` of a list of levels. -/
def pySum (xs : List Nat) : Nat :=
  xs.foldl (fun a b => a + b) 0

/-- The `skill_stats` dict of four parallel lists (line 90), keys
`"Skill"`, `"Min"`, `"Max"`, `"Average"`.  The average is modelled as an
exact rational (the Python code divides in floating point). -/
structure SkillStats where
  skills : List String
  mins : List Nat
  maxs : List Nat
  avgs : List Rat
deriving DecidableEq, Repr

/-- Loop body of lines 91–101: a skill with at least one recorded level
appends its name, min, max and average to the four parallel lists; a skill
with no contributors is skipped. -/
def skillStatsStep (members : Members) (acc : SkillStats) (skill : String) :
    SkillStats :=
  match competenciesFor members skill with
  | [] => acc
  | c :: cs =>
    { skills := acc.skills ++ [skill]
      mins := acc.mins ++ [pyMin c cs]
      maxs := acc.maxs ++ [pyMax c cs]
      avgs := acc.avgs ++ [((pySum (c :: cs) : Nat) : Rat) / (((c :: cs).length : Nat) : Rat)] }

/-- The aggregation loop of `display_category_radar_chart`
(lines 90–101): fold over the category's skill list. -/
def skillStats (skills : List String) (members : Members) : SkillStats :=
  skills.foldl (skillStatsStep members) { skills := [], mins := [], maxs := [], avgs := [] }

/-- One per-skill record of the specification's aggregation output:
`\x7bskill_name, min, max, average\x7d`. -/
structure SkillRecord where
  skill_name : String
  min : Nat
  max : Nat
  average : Rat
deriving DecidableEq, Repr

/-- Modelled from the spec's words (section 4.1): keep, in original order,
the skills with at least one contributor, and record for each the minimum,
maximum and exact arithmetic average of the contributed levels. -/
def aggregateSpec (skills : List String) (members : Members) :
    List SkillRecord :=
  (skills.filter (fun s => competenciesFor members s != [])).map
    (fun s =>
      { skill_name := s
        min := (competenciesFor members s).min?.getD 0
        max := (competenciesFor members s).max?.getD 0
        average := ((competenciesFor members s).sum : Rat) /
          ((competenciesFor members s).length : Rat) })

/-- Reading the four parallel stat lists as a list of per-skill records
(the rows of the DataFrame built on line 107). -/
def zipRecords : List String → List Nat → List Nat → List Rat → List SkillRecord
  | s :: ss, a :: at1, b :: bt, q :: qt =>
    { skill_name := s, min := a, max := b, average := q } :: zipRecords ss at1 bt qt
  | _, _, _, _ => []

/-- Outcome of `display_category_radar_chart` (lines 82–120): the early
"Add skills and members first" warning (line 87), the between-5-and-8
warning carrying the current eligible-skill count (line 104), or a chart
built from the aggregated stats. -/
inductive ChartResult
  | addFirst
  | notRenderable (count : Nat)
  | chart (stats : SkillStats)
deriving DecidableEq, Repr

/-- Embedding of `display_category_radar_chart` (lines 82–120) on one team
and category.  `skills` uses `.get(category, [])` semantics (line 84). -/
def display_category_radar_chart (t : Team) (category : String) : ChartResult :=
  let skills := (getKey? category t.skills).getD []
  if skills = [] ∨ t.members = [] then
    ChartResult.addFirst
  else
    let stats := skillStats skills t.members
    if stats.skills.length < 5 ∨ stats.skills.length > 8 then
      ChartResult.notRenderable stats.skills.length
    else
      ChartResult.chart stats

/-- One flattened export row (lines 173–178). -/
structure ExportRow where
  team : String
  member : String
  skill : String
  competency_level : Nat
deriving DecidableEq, Repr

/-- Rows of one member's competency dict (innermost loop of lines 172–178). -/
def compRows (team_name member_name : String) (comp : Competency) :
    List ExportRow :=
  comp.map (fun sl =>
    { team := team_name, member := member_name,
      skill := sl.1, competency_level := sl.2 })

/-- Rows of one team (member loop of line 171). -/
def memberRows (team_name : String) (ms : Members) : List ExportRow :=
  ms.flatMap (fun me => compRows team_name me.1 me.2)

/-- Embedding of `export_data` (lines 168–179): one row per recorded
(team, member, skill) triple, in team → member → recorded-skill order. -/
def export_data (st : AppState) : List ExportRow :=
  st.flatMap (fun te => memberRows te.1 te.2.members)

/-- Lookup of the original sparse score mapping at a
(team, member, skill) triple. -/
def lookupLevel (team_name member_name skill : String) (st : AppState) :
    Option Nat :=
  (getKey? team_name st).bind (fun t =>
    (getKey? member_name t.members).bind (fun comp => getKey? skill comp))

/-- Row predicate used to re-group the flattened export by
(team, member, skill). -/
def rowMatch (team_name member_name skill : String) (r : ExportRow) : Bool :=
  r.team == team_name && r.member == member_name && r.skill == skill

/-- Number of export rows for a given (team, member, skill) triple. -/
def countRows (team_name member_name skill : String) (rows : List ExportRow) :
    Nat :=
  rows.countP (rowMatch team_name member_name skill)

/-- Level of the first export row for a (team, member, skill) triple:
the re-grouped view of the flattened export. -/
def findRowLevel (team_name member_name skill : String)
    (rows : List ExportRow) : Option Nat :=
  (rows.find? (rowMatch team_name member_name skill)).map
    (fun r => r.competency_level)

/-- Keys of an association list are pairwise distinct (always true of a
Python dict). -/
def NodupKeys {β : Type} (l : List (String × β)) : Prop :=
  (l.map Prod.fst).Nodup

instance {β : Type} (l : List (String × β)) : Decidable (NodupKeys l) := by
  unfold NodupKeys; infer_instance

/-- Well-formedness of a session state: team names, member names within a
team, and skill keys within a member's dict are pairwise distinct — true
of every state the app can build, since each level is a Python dict. -/
def WF (st : AppState) : Prop :=
  NodupKeys st ∧
    ∀ e ∈ st, NodupKeys e.2.members ∧ ∀ me ∈ e.2.members, NodupKeys me.2

instance (st : AppState) : Decidable (WF st) := by
  unfold WF; infer_instance

/-- Every recorded competency level in the state is at most 10. -/
def levelsBounded (st : AppState) : Prop :=
  ∀ te ∈ st, ∀ me ∈ te.2.members, ∀ p ∈ me.2, p.2 ≤ 10

instance (st : AppState) : Decidable (levelsBounded st) := by
  unfold levelsBounded; infer_instance

/-- States reachable by the app from the fresh session (`teams = {}`),
through the user-facing operations.  Slider values are kept in `[0, 10]`
by the widget itself (lines 73–78), hence the bound hypothesis on the
assignment step. -/
inductive Reachable : AppState → Prop
  | init : Reachable []
  | addTeam (n : String) (st : AppState) :
      Reachable st → Reachable (add_team n st).1
  | addMembers (tn input : String) (st st' : AppState) (msg : Msg) :
      Reachable st → add_members tn input st = some (st', msg) →
      Reachable st'
  | addSkills (tn cat input : String) (st st' : AppState) (msg : Msg) :
      Reachable st → add_skills tn cat input st = some (st', msg) →
      Reachable st'
  | assign (tn : String) (sliders : String → String → Nat)
      (st st' : AppState) :
      Reachable st → (∀ m s, sliders m s ≤ 10) →
      assign_competency_state tn sliders st = some st' → Reachable st'
  | deleteTeam (tn : String) (st : AppState) :
      Reachable st → Reachable (delete_team tn st)

/-! Association-list lemmas. -/

theorem getKey?_append_some {β : Type} {k : String} {v : β}
    {l₁ l₂ : List (String × β)} (h : getKey? k l₁ = some v) :
    getKey? k (l₁ ++ l₂) = some v := by
  induction l₁ with
  | nil => simp [getKey?] at h
  | cons e rest ih =>
    by_cases he : e.1 = k
    · simpa [getKey?, he] using h
    · simp only [getKey?, he, if_false, List.cons_append] at h ⊢
      exact ih h

theorem getKey?_append_none {β : Type} {k : String}
    {l₁ l₂ : List (String × β)} (h : getKey? k l₁ = none) :
    getKey? k (l₁ ++ l₂) = getKey? k l₂ := by
  induction l₁ with
  | nil => simp
  | cons e rest ih =>
    by_cases he : e.1 = k
    · simp [getKey?, he] at h
    · simp only [getKey?, he, if_false, List.cons_append] at h ⊢
      exact ih h

theorem getKey?_setKey_self {β : Type} (k : String) (v : β)
    (l : List (String × β)) : getKey? k (setKey k v l) = some v := by
  induction l with
  | nil => simp [getKey?, setKey]
  | cons e rest ih =>
    by_cases he : e.1 = k
    · simp [getKey?, setKey, he]
    · simp [getKey?, setKey, he, ih]

theorem getKey?_setKey_ne {β : Type} {k k' : String} (v : β)
    (l : List (String × β)) (h : k' ≠ k) :
    getKey? k' (setKey k v l) = getKey? k' l := by
  induction l with
  | nil => simp [getKey?, setKey, Ne.symm h]
  | cons e rest ih =>
    by_cases he : e.1 = k
    · subst he
      simp [getKey?, setKey, Ne.symm h]
    · simp only [setKey, he, if_false, getKey?]
      by_cases he' : e.1 = k'
      · simp [he']
      · simp [he', ih]

theorem setKey_getKey?_eq {β : Type} {k : String} {v : β}
    {l : List (String × β)} (h : getKey? k l = some v) :
    setKey k v l = l := by
  induction l with
  | nil => simp [getKey?] at h
  | cons e rest ih =>
    by_cases he : e.1 = k
    · simp only [getKey?, he, if_true, Option.some.injEq] at h
      subst he; subst h
      simp [setKey]
    · simp only [getKey?, he, if_false] at h
      simp [setKey, he, ih h]

theorem keysOf_setKey {β : Type} (k : String) (v : β)
    (l : List (String × β)) :
    keysOf (setKey k v l) =
      if (getKey? k l).isSome then keysOf l else keysOf l ++ [k] := by
  induction l with
  | nil => simp [keysOf, setKey, getKey?]
  | cons e rest ih =>
    by_cases he : e.1 = k
    · simp [keysOf, setKey, getKey?, he]
    · simp only [setKey, he, if_false, getKey?, keysOf, List.map_cons] at ih ⊢
      by_cases hr : (getKey? k rest).isSome
      · simp [hr] at ih
        simp [hr, ih]
      · simp [hr] at ih
        simp [hr, ih]

theorem mem_setKey {β : Type} {p : String × β} {k : String} {v : β}
    {l : List (String × β)} (h : p ∈ setKey k v l) :
    p ∈ l ∨ p = (k, v) := by
  induction l with
  | nil => simpa [setKey] using h
  | cons e rest ih =>
    by_cases he : e.1 = k
    · simp only [setKey, he, if_true, List.mem_cons] at h
      rcases h with h | h
      · exact Or.inr h
      · exact Or.inl (List.mem_cons_of_mem _ h)
    · simp only [setKey, he, if_false, List.mem_cons] at h
      rcases h with h | h
      · exact Or.inl (h ▸ List.mem_cons_self _ _)
      · rcases ih h with h' | h'
        · exact Or.inl (List.mem_cons_of_mem _ h')
        · exact Or.inr h'

theorem mem_eraseKey {β : Type} {p : String × β} {k : String}
    {l : List (String × β)} (h : p ∈ eraseKey k l) : p ∈ l := by
  induction l with
  | nil => simp [eraseKey] at h
  | cons e rest ih =>
    by_cases he : e.1 = k
    · simp only [eraseKey, he, if_true] at h
      exact List.mem_cons_of_mem _ h
    · simp only [eraseKey, he, if_false, List.mem_cons] at h
      rcases h with h | h
      · exact h ▸ List.mem_cons_self _ _
      · exact List.mem_cons_of_mem _ (ih h)

theorem countKey_eq_zero {β : Type} {k : String} {l : List (String × β)}
    (h : getKey? k l = none) : countKey k l = 0 := by
  induction l with
  | nil => simp [countKey]
  | cons e rest ih =>
    by_cases he : e.1 = k
    · simp [getKey?, he] at h
    · simp only [getKey?, he, if_false] at h
      simp only [countKey, List.countP_cons] at ih ⊢
      simp [he, ih h]

theorem countKey_append {β : Type} (k : String)
    (l₁ l₂ : List (String × β)) :
    countKey k (l₁ ++ l₂) = countKey k l₁ + countKey k l₂ := by
  simp [countKey, List.countP_append]

/-- Generic preservation of a predicate along a left fold. -/
theorem foldl_preserve {α β : Type} (P : β → Prop) (f : β → α → β)
    (hf : ∀ b a, P b → P (f b a)) :
    ∀ (l : List α) (b : β), P b → P (l.foldl f b) := by
  intro l
  induction l with
  | nil => intro b hb; simpa using hb
  | cons a rest ih =>
    intro b hb
    simpa using ih (f b a) (hf b a hb)

/-! Aggregation lemmas (claim C1). -/

theorem foldl_add_eq_add_sum (l : List Nat) :
    ∀ n : Nat, l.foldl (fun a b => a + b) n = n + l.sum := by
  induction l with
  | nil => intro n; simp
  | cons x xs ih =>
    intro n
    simp only [List.foldl_cons, List.sum_cons, ih, Nat.add_assoc]

theorem pySum_eq_sum (l : List Nat) : pySum l = l.sum := by
  simpa [pySum] using foldl_add_eq_add_sum l 0

theorem pyMin_eq_min? (c : Nat) (cs : List Nat) :
    pyMin c cs = (c :: cs).min?.getD 0 := rfl

theorem pyMax_eq_max? (c : Nat) (cs : List Nat) :
    pyMax c cs = (c :: cs).max?.getD 0 := rfl

theorem zipRecords_append :
    ∀ (xs : List String) (ys zs : List Nat) (ws : List Rat)
      (x : String) (y z : Nat) (w : Rat),
      ys.length = xs.length → zs.length = xs.length → ws.length = xs.length →
      zipRecords (xs ++ [x]) (ys ++ [y]) (zs ++ [z]) (ws ++ [w]) =
        zipRecords xs ys zs ws ++
          [{ skill_name := x, min := y, max := z, average := w }] := by
  intro xs
  induction xs with
  | nil =>
    intro ys zs ws x y z w h1 h2 h3
    simp only [List.length_nil, List.length_eq_zero] at h1 h2 h3
    subst h1; subst h2; subst h3
    simp [zipRecords]
  | cons s ss ih =>
    intro ys zs ws x y z w h1 h2 h3
    cases ys with
    | nil => simp at h1
    | cons y0 yt =>
      cases zs with
      | nil => simp at h2
      | cons z0 zt =>
        cases ws with
        | nil => simp at h3
        | cons w0 wt =>
          simp only [List.length_cons, Nat.succ.injEq] at h1 h2 h3
          simp only [List.cons_append, zipRecords, List.cons.injEq, true_and]
          exact ih yt zt wt x y z w h1 h2 h3

theorem skillStats_foldl_spec (members : Members) :
    ∀ (skills : List String) (acc : SkillStats),
      acc.mins.length = acc.skills.length →
      acc.maxs.length = acc.skills.length →
      acc.avgs.length = acc.skills.length →
      zipRecords (skills.foldl (skillStatsStep members) acc).skills
          (skills.foldl (skillStatsStep members) acc).mins
          (skills.foldl (skillStatsStep members) acc).maxs
          (skills.foldl (skillStatsStep members) acc).avgs =
        zipRecords acc.skills acc.mins acc.maxs acc.avgs ++
          aggregateSpec skills members := by
  intro skills
  induction skills with
  | nil =>
    intro acc h1 h2 h3
    simp [aggregateSpec]
  | cons s rest ih =>
    intro acc h1 h2 h3
    simp only [List.foldl_cons]
    cases hc : competenciesFor members s with
    | nil =>
      have hstep : skillStatsStep members acc s = acc := by
        simp [skillStatsStep, hc]
      have hagg : aggregateSpec (s :: rest) members =
          aggregateSpec rest members := by
        simp [aggregateSpec, List.filter_cons, hc]
      rw [hstep, hagg]
      exact ih acc h1 h2 h3
    | cons c cs =>
      have hstep : skillStatsStep members acc s =
          { skills := acc.skills ++ [s]
            mins := acc.mins ++ [pyMin c cs]
            maxs := acc.maxs ++ [pyMax c cs]
            avgs := acc.avgs ++
              [((pySum (c :: cs) : Nat) : Rat) / (((c :: cs).length : Nat) : Rat)] } := by
        simp [skillStatsStep, hc]
      rw [hstep]
      rw [ih _ (by simp [h1]) (by simp [h2]) (by simp [h3])]
      have hagg : aggregateSpec (s :: rest) members =
          { skill_name := s
            min := (competenciesFor members s).min?.getD 0
            max := (competenciesFor members s).max?.getD 0
            average := ((competenciesFor members s).sum : Rat) /
              ((competenciesFor members s).length : Rat) } ::
            aggregateSpec rest members := by
        simp [aggregateSpec, List.filter_cons, hc]
      rw [hagg,
        zipRecords_append acc.skills acc.mins acc.maxs acc.avgs _ _ _ _ h1 h2 h3]
      rw [List.append_assoc, List.singleton_append]
      rw [hc, pyMin_eq_min?, pyMax_eq_max?, pySum_eq_sum]

theorem skillStats_members_nil (skills : List String) :
    skillStats skills [] =
      { skills := [], mins := [], maxs := [], avgs := [] } := by
  have h : ∀ (l : List String) (acc : SkillStats),
      l.foldl (skillStatsStep []) acc = acc := by
    intro l
    induction l with
    | nil => intro acc; rfl
    | cons s rest ih =>
      intro acc
      have hs : skillStatsStep [] acc s = acc := by
        simp [skillStatsStep, competenciesFor]
      simp only [List.foldl_cons, hs]
      exact ih acc
  simpa [skillStats] using h skills _

/-- C1: for every team and category, the aggregation step produces, for
each skill of the category with at least one contributing member, a record
with the minimum, maximum and exact arithmetic average of the levels
recorded by contributing members; members without an entry contribute
nothing, zero-contributor skills are omitted, and skill-list order is
preserved.  Formally: the four parallel stat lists built by the source
loop, read as records, equal the specification-level aggregation
`aggregateSpec`.  (The Python float division is modelled as exact rational
division.) -/
theorem C1_aggregation_matches_spec (skills : List String) (members : Members) :
    zipRecords (skillStats skills members).skills
        (skillStats skills members).mins
        (skillStats skills members).maxs
        (skillStats skills members).avgs =
      aggregateSpec skills members := by
  have h := skillStats_foldl_spec members skills
    { skills := [], mins := [], maxs := [], avgs := [] } rfl rfl rfl
  simpa [skillStats, zipRecords] using h

/-- C2 counterexample: for a team with no members, the code signals the
early "Add skills and members first" warning (line 87), not the
"not renderable" notice carrying the eligible-skill count (here 0), so the
claim's "otherwise a not-renderable notice with the count" part fails. -/
theorem C2_counterexample :
    display_category_radar_chart
        { members := [], skills := DEFAULT_SKILLS } "Technical" =
      ChartResult.addFirst ∧
    display_category_radar_chart
        { members := [], skills := DEFAULT_SKILLS } "Technical" ≠
      ChartResult.notRenderable 0 := by
  constructor
  · rfl
  · intro h
    exact ChartResult.noConfusion h

/-- C2 (amended): a chart is produced if and only if the eligible-skill
count is in [5, 8]; when the category's skill list and the member set are
both non-empty and the count is outside [5, 8], the "not renderable"
notice carries the actual eligible-skill count; when the skill list or the
member set is empty, a different warning (without a count) is signalled
and no chart is produced. -/
theorem C2_renderable_iff_count_in_range (t : Team) (category : String)
    (skills : List String) (count : Nat)
    (hsk : skills = (getKey? category t.skills).getD [])
    (hc : count = (skillStats skills t.members).skills.length) :
    (display_category_radar_chart t category =
        ChartResult.chart (skillStats skills t.members) ↔
      5 ≤ count ∧ count ≤ 8) ∧
    (skills ≠ [] → t.members ≠ [] → ¬(5 ≤ count ∧ count ≤ 8) →
      display_category_radar_chart t category =
        ChartResult.notRenderable count) ∧
    ((skills = [] ∨ t.members = []) →
      display_category_radar_chart t category = ChartResult.addFirst) := by
  subst hsk
  by_cases h0 : (getKey? category t.skills).getD [] = [] ∨ t.members = []
  · have hd : display_category_radar_chart t category = ChartResult.addFirst := by
      simp only [display_category_radar_chart]
      rw [if_pos h0]
    have hcount : count = 0 := by
      rcases h0 with h0 | h0
      · rw [hc, h0]; rfl
      · rw [hc, h0, skillStats_members_nil]
        rfl
    refine ⟨?_, ?_, fun _ => hd⟩
    · constructor
      · intro hch
        rw [hd] at hch
        exact absurd hch (by intro hh; exact ChartResult.noConfusion hh)
      · intro hr
        omega
    · intro h1 h2 _
      rcases h0 with h0 | h0
      · exact absurd h0 h1
      · exact absurd h0 h2
  · push_neg at h0
    have hd : display_category_radar_chart t category =
        (if (skillStats ((getKey? category t.skills).getD []) t.members).skills.length < 5 ∨
            (skillStats ((getKey? category t.skills).getD []) t.members).skills.length > 8 then
          ChartResult.notRenderable
            (skillStats ((getKey? category t.skills).getD []) t.members).skills.length
        else
          ChartResult.chart (skillStats ((getKey? category t.skills).getD []) t.members)) := by
      simp only [display_category_radar_chart]
      rw [if_neg (by rintro (h | h); exacts [h0.1 h, h0.2 h])]
    by_cases hr : count < 5 ∨ count > 8
    · have hd' : display_category_radar_chart t category =
          ChartResult.notRenderable count := by
        rw [hd, if_pos (by rw [← hc]; exact hr), ← hc]
      refine ⟨?_, fun _ _ _ => hd', fun hcon => ?_⟩
      · rw [hd']
        constructor
        · intro hh; exact absurd hh (by intro hh'; exact ChartResult.noConfusion hh')
        · intro hh; omega
      · rcases hcon with hcon | hcon
        exacts [absurd hcon h0.1, absurd hcon h0.2]
    · have hd' : display_category_radar_chart t category =
          ChartResult.chart (skillStats ((getKey? category t.skills).getD []) t.members) := by
        rw [hd, if_neg (by rw [← hc]; exact hr)]
      refine ⟨?_, fun _ _ hcon => absurd (by omega) hcon, fun hcon => ?_⟩
      · rw [hd']
        simp only [true_iff]
        omega
      · rcases hcon with hcon | hcon
        exacts [absurd hcon h0.1, absurd hcon h0.2]

/-- Witness for C2: a team whose only score is Ana's Python = 3 has one
eligible Technical skill, and the component signals the count-bearing
notice with count 1. -/
theorem C2_witness :
    display_category_radar_chart
        { members := [("Ana", [("Python", 3)])], skills := DEFAULT_SKILLS }
        "Technical" = ChartResult.notRenderable 1 :=
  (C2_renderable_iff_count_in_range
      { members := [("Ana", [("Python", 3)])], skills := DEFAULT_SKILLS }
      "Technical" ["Databricks", "Python", "NodeJS", "SQL", "Gitlab"] 1
      (by decide) (by decide)).2.1
    (by decide) (by decide) (by decide)

/-- C5 counterexample: a category with an empty skill list but a scored
member yields zero records, yet the code reports the early "add skills and
members" warning rather than a "not renderable" notice with the count 0,
so the claim's "reported as not renderable with the count" part fails. -/
theorem C5_counterexample :
    display_category_radar_chart
        { members := [("Ana", [("Python", 3)])],
          skills := [("Technical", [])] } "Technical" =
      ChartResult.addFirst ∧
    display_category_radar_chart
        { members := [("Ana", [("Python", 3)])],
          skills := [("Technical", [])] } "Technical" ≠
      ChartResult.notRenderable 0 := by
  constructor
  · rfl
  · intro h
    exact ChartResult.noConfusion h

/-- C5 (amended): requesting a chart when the category's skill list is
empty or the team's member set is empty raises no exceptional failure —
the embedding is a total function — the aggregation yields zero records,
and the request is reported with the early "add skills and members first"
warning (which carries no count) instead of the count-bearing notice, and
no chart is produced. -/
theorem C5_empty_inputs_warn_no_chart (t : Team) (category : String)
    (h : (getKey? category t.skills).getD [] = [] ∨ t.members = []) :
    display_category_radar_chart t category = ChartResult.addFirst ∧
    (skillStats ((getKey? category t.skills).getD []) t.members).skills.length = 0 := by
  constructor
  · simp only [display_category_radar_chart]
    rw [if_pos h]
  · rcases h with h | h
    · rw [h]; rfl
    · rw [h, skillStats_members_nil]
      rfl

/-- Witness for C5 at a concrete team with a member but no skills in the
category. -/
theorem C5_witness :
    display_category_radar_chart
        { members := [("Bo", [])], skills := [("Technical", []), ("Domain", ["LM"])] }
        "Technical" = ChartResult.addFirst ∧
    (skillStats [] [("Bo", [])]).skills.length = 0 :=
  C5_empty_inputs_warn_no_chart
    { members := [("Bo", [])], skills := [("Technical", []), ("Domain", ["LM"])] }
    "Technical" (by decide)

/-- C6: adding a valid (non-empty) team name not already present yields
success, appends exactly one team with that name, pre-populated with the
three default categories and their default skill lists, and zero members. -/
theorem C6_add_team_defaults (st : AppState) (name : String)
    (hname : name ≠ "") (habs : getKey? name st = none) :
    add_team name st =
      (st ++ [(name, { members := [], skills := DEFAULT_SKILLS })],
        Msg.success) ∧
    getKey? name (add_team name st).1 =
      some { members := [], skills := DEFAULT_SKILLS } ∧
    countKey name (add_team name st).1 = 1 ∧
    keysOf DEFAULT_SKILLS = ["Technical", "Domain", "Operational"] := by
  have heq : add_team name st =
      (st ++ [(name, { members := [], skills := DEFAULT_SKILLS })],
        Msg.success) := by
    simp only [add_team]
    rw [if_pos ⟨hname, habs⟩]
  refine ⟨heq, ?_, ?_, by decide⟩
  · rw [heq]
    rw [getKey?_append_none habs]
    simp [getKey?]
  · rw [heq]
    simp only [countKey_append, countKey_eq_zero habs]
    simp [countKey]

/-- Witness for C6 at the fresh state and the name "Alpha". -/
theorem C6_witness :
    getKey? "Alpha" (add_team "Alpha" []).1 =
      some { members := [], skills := DEFAULT_SKILLS } ∧
    countKey "Alpha" (add_team "Alpha" []).1 = 1 :=
  ⟨(C6_add_team_defaults [] "Alpha" (by decide) (by decide)).2.1,
   (C6_add_team_defaults [] "Alpha" (by decide) (by decide)).2.2.1⟩

/-- C7: attempting to create a team whose name is already present yields a
warning and returns the state unchanged — every team's members, skills and
scores are exactly as before. -/
theorem C7_duplicate_team_warning (st : AppState) (name : String)
    (h : (getKey? name st).isSome) : add_team name st = (st, Msg.warning) := by
  have h1 : ¬(name ≠ "" ∧ getKey? name st = none) := by
    rintro ⟨-, h2⟩
    rw [h2] at h
    simp at h
  simp only [add_team]
  rw [if_neg h1, if_pos h]

/-- Witness for C7: adding "Alpha" twice warns and leaves the state from
the first addition untouched. -/
theorem C7_witness :
    add_team "Alpha" (add_team "Alpha" []).1 =
      ((add_team "Alpha" []).1, Msg.warning) :=
  C7_duplicate_team_warning (add_team "Alpha" []).1 "Alpha" (by decide)

/-! Competency-assignment lemmas (claims C3 and C8). -/

theorem getKey?_mem {β : Type} {k : String} {v : β} :
    ∀ {l : List (String × β)}, getKey? k l = some v → (k, v) ∈ l := by
  intro l
  induction l with
  | nil => intro h; simp [getKey?] at h
  | cons e rest ih =>
    intro h
    by_cases he : e.1 = k
    · simp only [getKey?, he, if_true, Option.some.injEq] at h
      subst he; subst h
      exact List.mem_cons_self _ _
    · simp only [getKey?, he, if_false] at h
      exact List.mem_cons_of_mem _ (ih h)

theorem assignSkill_sets (sliders : String → String → Nat) (s : String)
    (ms : Members) :
    ∀ e ∈ assignSkill sliders s ms, getKey? s e.2 = some (sliders e.1 s) := by
  intro e he
  rcases List.mem_map.mp he with ⟨x, -, hx⟩
  subst hx
  exact getKey?_setKey_self s (sliders x.1 s) x.2

theorem assignSkill_preserve (sliders : String → String → Nat)
    (s sk : String) (ms : Members)
    (h : ∀ e ∈ ms, getKey? s e.2 = some (sliders e.1 s)) :
    ∀ e ∈ assignSkill sliders sk ms, getKey? s e.2 = some (sliders e.1 s) := by
  intro e he
  rcases List.mem_map.mp he with ⟨x, hxm, hx⟩
  subst hx
  by_cases hss : s = sk
  · subst hss
    exact getKey?_setKey_self s (sliders x.1 s) x.2
  · rw [getKey?_setKey_ne _ _ hss]
    exact h x hxm

theorem innerFold_preserve (sliders : String → String → Nat) (s : String)
    (sks : List String) (ms : Members)
    (h : ∀ e ∈ ms, getKey? s e.2 = some (sliders e.1 s)) :
    ∀ e ∈ sks.foldl (fun ms2 sk => assignSkill sliders sk ms2) ms,
      getKey? s e.2 = some (sliders e.1 s) :=
  foldl_preserve
    (fun ms2 => ∀ e ∈ ms2, getKey? s e.2 = some (sliders e.1 s))
    (fun ms2 sk => assignSkill sliders sk ms2)
    (fun ms2 sk hp => assignSkill_preserve sliders s sk ms2 hp) sks ms h

theorem assignAll_preserve (sliders : String → String → Nat) (s : String)
    (cats : List (String × List String)) (ms : Members)
    (h : ∀ e ∈ ms, getKey? s e.2 = some (sliders e.1 s)) :
    ∀ e ∈ assignAll sliders cats ms, getKey? s e.2 = some (sliders e.1 s) := by
  simp only [assignAll]
  exact foldl_preserve
    (fun ms2 => ∀ e ∈ ms2, getKey? s e.2 = some (sliders e.1 s))
    (fun ms2 p => p.2.foldl (fun ms3 sk => assignSkill sliders sk ms3) ms2)
    (fun ms2 p hp => innerFold_preserve sliders s p.2 ms2 hp) cats ms h

theorem innerFold_sets (sliders : String → String → Nat) (s : String) :
    ∀ (sks : List String) (ms : Members), s ∈ sks →
      ∀ e ∈ sks.foldl (fun ms2 sk => assignSkill sliders sk ms2) ms,
        getKey? s e.2 = some (sliders e.1 s) := by
  intro sks
  induction sks with
  | nil => intro ms hs; cases hs
  | cons sk rest ih =>
    intro ms hs
    simp only [List.foldl_cons]
    by_cases hr : s ∈ rest
    · exact ih (assignSkill sliders sk ms) hr
    · have hs' : s = sk := by
        rcases List.mem_cons.mp hs with h | h
        · exact h
        · exact absurd h hr
      subst hs'
      exact innerFold_preserve sliders s rest (assignSkill sliders s ms)
        (assignSkill_sets sliders s ms)

theorem assignAll_sets (sliders : String → String → Nat) (s c : String)
    (sks : List String) :
    ∀ (cats : List (String × List String)) (ms : Members),
      (c, sks) ∈ cats → s ∈ sks →
      ∀ e ∈ assignAll sliders cats ms, getKey? s e.2 = some (sliders e.1 s) := by
  intro cats
  induction cats with
  | nil => intro ms hc; cases hc
  | cons p rest ih =>
    intro ms hc hs
    simp only [assignAll, List.foldl_cons]
    rcases List.mem_cons.mp hc with h | h
    · have hsp : s ∈ p.2 := by rw [← h]; exact hs
      exact foldl_preserve
        (fun ms2 => ∀ e ∈ ms2, getKey? s e.2 = some (sliders e.1 s))
        (fun ms2 q => q.2.foldl (fun ms3 sk => assignSkill sliders sk ms3) ms2)
        (fun ms2 q hp => innerFold_preserve sliders s q.2 ms2 hp) rest _
        (innerFold_sets sliders s p.2 ms hsp)
    · have := ih (p.2.foldl (fun ms2 sk => assignSkill sliders sk ms2) ms) h hs
      simpa [assignAll] using this

/-- C3: after `assign_competency` runs on a team, every member of the team
has a recorded level for every skill of every category of that team — the
slider's current value is stored unconditionally — so no (member, skill)
pair of the team remains unscored. -/
theorem C3_assign_scores_all_pairs (sliders : String → String → Nat)
    (t : Team) (c : String) (sks : List String) (s : String)
    (e : String × Competency)
    (hc : (c, sks) ∈ (assign_competency sliders t).skills)
    (hs : s ∈ sks)
    (he : e ∈ (assign_competency sliders t).members) :
    getKey? s e.2 = some (sliders e.1 s) := by
  by_cases hall : t.skills.all (fun p => p.2.isEmpty) = true
  · simp only [assign_competency, if_pos hall] at hc
    have hempty := List.all_eq_true.mp hall (c, sks) hc
    simp only [List.isEmpty_iff] at hempty
    rw [hempty] at hs
    cases hs
  · simp only [assign_competency, if_neg hall] at hc he
    exact assignAll_sets sliders s c sks t.skills t.members hc hs e he

/-- Witness for C3: a one-member, one-skill team; after assignment Ana's
dict records level 5 for "Python". -/
theorem C3_witness :
    getKey? "Python" [("Python", 5)] = some 5 :=
  C3_assign_scores_all_pairs (fun _ _ => 5)
    { members := [("Ana", [])], skills := [("Technical", ["Python"])] }
    "Technical" ["Python"] "Python" ("Ana", [("Python", 5)])
    (by decide) (by decide) (by decide)

/-! Boundedness of recorded levels across reachable states (claim C8). -/

theorem mem_addMemberNames (names : List String) :
    ∀ (ms : Members) (e : String × Competency),
      e ∈ addMemberNames names ms → e ∈ ms ∨ e.2 = [] := by
  induction names with
  | nil => intro ms e he; exact Or.inl he
  | cons n rest ih =>
    intro ms e he
    have hstep : addMemberNames (n :: rest) ms =
        addMemberNames rest
          (if n ≠ "" ∧ getKey? n ms = none then ms ++ [(n, [])] else ms) := by
      simp [addMemberNames]
    rw [hstep] at he
    rcases ih _ e he with h | h
    · by_cases hcond : n ≠ "" ∧ getKey? n ms = none
      · rw [if_pos hcond] at h
        rcases List.mem_append.mp h with h' | h'
        · exact Or.inl h'
        · simp only [List.mem_singleton] at h'
          subst h'
          exact Or.inr rfl
      · rw [if_neg hcond] at h
        exact Or.inl h
    · exact Or.inr h

theorem assignAll_bounded (sliders : String → String → Nat)
    (hb : ∀ m s, sliders m s ≤ 10) (cats : List (String × List String))
    (ms : Members) (h : ∀ e ∈ ms, ∀ p ∈ e.2, p.2 ≤ 10) :
    ∀ e ∈ assignAll sliders cats ms, ∀ p ∈ e.2, p.2 ≤ 10 := by
  simp only [assignAll]
  refine foldl_preserve (fun ms2 => ∀ e ∈ ms2, ∀ p ∈ e.2, p.2 ≤ 10)
    _ ?_ cats ms h
  intro ms2 q hp
  refine foldl_preserve (fun ms3 => ∀ e ∈ ms3, ∀ p ∈ e.2, p.2 ≤ 10)
    _ ?_ q.2 ms2 hp
  intro ms3 sk hp3 e he p hpe
  rcases List.mem_map.mp he with ⟨x, hxm, hx⟩
  subst hx
  rcases mem_setKey hpe with h' | h'
  · exact hp3 x hxm p h'
  · rw [h']
    exact hb x.1 sk

theorem levelsBounded_setKeyTeam {st : AppState} {tn : String} {t : Team}
    (h : levelsBounded st) (ht : ∀ me ∈ t.members, ∀ p ∈ me.2, p.2 ≤ 10) :
    levelsBounded (setKey tn t st) := by
  intro te hte
  rcases mem_setKey hte with h1 | h1
  · exact h te h1
  · subst h1
    exact ht

theorem levelsBounded_addTeam (n : String) (st : AppState)
    (h : levelsBounded st) : levelsBounded (add_team n st).1 := by
  simp only [add_team]
  split
  · intro te hte
    rcases List.mem_append.mp hte with h1 | h1
    · exact h te h1
    · simp only [List.mem_singleton] at h1
      subst h1
      intro me hme
      cases hme
  · split
    · exact h
    · exact h

theorem levelsBounded_addMembers {tn input : String} {st st' : AppState}
    {msg : Msg} (heq : add_members tn input st = some (st', msg))
    (h : levelsBounded st) : levelsBounded st' := by
  simp only [add_members] at heq
  by_cases h1 : input = ""
  · rw [if_pos h1] at heq
    obtain ⟨rfl, -⟩ : st = st' ∧ Msg.error = msg := by
      simpa using heq
    exact h
  · rw [if_neg h1] at heq
    by_cases h2 : (parseNames input).isEmpty
    · rw [if_pos h2] at heq
      obtain ⟨rfl, -⟩ : st = st' ∧ Msg.success = msg := by
        simpa using heq
      exact h
    · rw [if_neg h2] at heq
      cases hteam : getKey? tn st with
      | none => rw [hteam] at heq; cases heq
      | some t =>
        rw [hteam] at heq
        obtain ⟨hst, -⟩ :
            setKey tn { t with members := addMemberNames (parseNames input) t.members } st = st' ∧
              Msg.success = msg := by
          simpa using heq
        rw [← hst]
        refine levelsBounded_setKeyTeam h ?_

        intro me hme
        rcases mem_addMemberNames (parseNames input) t.members me hme with h3 | h3
        · exact h (tn, t) (getKey?_mem hteam) me h3
        · rw [h3]
          intro p hp
          cases hp

theorem levelsBounded_addSkills {tn cat input : String} {st st' : AppState}
    {msg : Msg} (heq : add_skills tn cat input st = some (st', msg))
    (h : levelsBounded st) : levelsBounded st' := by
  simp only [add_skills] at heq
  by_cases h1 : input = ""
  · rw [if_pos h1] at heq
    obtain ⟨rfl, -⟩ : st = st' ∧ Msg.error = msg := by
      simpa using heq
    exact h
  · rw [if_neg h1] at heq
    by_cases h2 : (parseNames input).isEmpty
    · rw [if_pos h2] at heq
      obtain ⟨rfl, -⟩ : st = st' ∧ Msg.success = msg := by
        simpa using heq
      exact h
    · rw [if_neg h2] at heq
      split at heq
      · cases heq
      · rename_i t hteam
        split at heq
        · cases heq
        · rename_i sks hcat
          obtain ⟨hst, -⟩ :
              setKey tn
                  { t with skills :=
                      setKey cat (addSkillNames (parseNames input) sks) t.skills } st = st' ∧
                Msg.success = msg := by
            simpa using heq
          rw [← hst]
          exact levelsBounded_setKeyTeam h
            (fun me hme => h (tn, t) (getKey?_mem hteam) me hme)

theorem levelsBounded_assign {tn : String}
    {sliders : String → String → Nat} {st st' : AppState}
    (hb : ∀ m s, sliders m s ≤ 10)
    (heq : assign_competency_state tn sliders st = some st')
    (h : levelsBounded st) : levelsBounded st' := by
  simp only [assign_competency_state] at heq
  cases hteam : getKey? tn st with
  | none => rw [hteam] at heq; cases heq
  | some t =>
    rw [hteam] at heq
    obtain rfl : setKey tn (assign_competency sliders t) st = st' := by
      simpa using heq
    refine levelsBounded_setKeyTeam h ?_
    simp only [assign_competency]
    split
    · exact fun me hme => h (tn, t) (getKey?_mem hteam) me hme
    · exact assignAll_bounded sliders hb t.skills t.members
        (fun me hme => h (tn, t) (getKey?_mem hteam) me hme)

theorem levelsBounded_delete (tn : String) (st : AppState)
    (h : levelsBounded st) : levelsBounded (delete_team tn st) := by
  intro te hte
  exact h te (mem_eraseKey hte)

/-- C8: in every reachable session state every recorded competency level
is an integer in [0, 10] (levels are naturals, so only the upper bound is
substantive), and assigning a level twice to the same (member, skill) key
overwrites the previous value in place — the lookup yields the new value
and the dict's key sequence is unchanged, so no duplicate entry appears. -/
theorem C8_levels_bounded_and_overwrite (st : AppState) (h : Reachable st) :
    levelsBounded st ∧
    ∀ (k : String) (v₁ v₂ : Nat) (comp : Competency),
      getKey? k (setKey k v₂ (setKey k v₁ comp)) = some v₂ ∧
      keysOf (setKey k v₂ (setKey k v₁ comp)) = keysOf (setKey k v₁ comp) := by
  constructor
  · induction h with
    | init => intro te hte; cases hte
    | addTeam n st h ih => exact levelsBounded_addTeam n st ih
    | addMembers tn input st st' msg h heq ih =>
      exact levelsBounded_addMembers heq ih
    | addSkills tn cat input st st' msg h heq ih =>
      exact levelsBounded_addSkills heq ih
    | assign tn sliders st st' h hb heq ih =>
      exact levelsBounded_assign hb heq ih
    | deleteTeam tn st h ih => exact levelsBounded_delete tn st ih
  · intro k v₁ v₂ comp
    refine ⟨getKey?_setKey_self k v₂ (setKey k v₁ comp), ?_⟩
    rw [keysOf_setKey]
    rw [if_pos (by rw [getKey?_setKey_self]; rfl)]

/-- Witness for C8: the state reached by adding team "Alpha", adding
member "Ana" and assigning all sliders at 7 has all levels bounded, and a
double assignment at key "Python" overwrites. -/
theorem C8_witness :
    levelsBounded
      [("Alpha",
        { members :=
            [("Ana",
              [("Databricks", 7), ("Python", 7), ("NodeJS", 7), ("SQL", 7),
               ("Gitlab", 7), ("LM", 7), ("SM", 7), ("in vitro", 7),
               ("in vivo", 7), ("target", 7), ("SAFe", 7), ("Collab", 7),
               ("Comms", 7), ("SNOW", 7), ("Monitoring and Tracking", 7)])],
          skills := DEFAULT_SKILLS })] ∧
    getKey? "Python" (setKey "Python" 3 (setKey "Python" 7 [])) = some 3 := by
  have h1 : Reachable (add_team "Alpha" []).1 :=
    Reachable.addTeam "Alpha" [] Reachable.init
  have h2 : Reachable
      [("Alpha", { members := [("Ana", [])], skills := DEFAULT_SKILLS })] :=
    Reachable.addMembers "Alpha" "Ana" (add_team "Alpha" []).1
      [("Alpha", { members := [("Ana", [])], skills := DEFAULT_SKILLS })]
      Msg.success h1 (by decide)
  have h3 : Reachable
      [("Alpha",
        { members :=
            [("Ana",
              [("Databricks", 7), ("Python", 7), ("NodeJS", 7), ("SQL", 7),
               ("Gitlab", 7), ("LM", 7), ("SM", 7), ("in vitro", 7),
               ("in vivo", 7), ("target", 7), ("SAFe", 7), ("Collab", 7),
               ("Comms", 7), ("SNOW", 7), ("Monitoring and Tracking", 7)])],
          skills := DEFAULT_SKILLS })] :=
    Reachable.assign "Alpha" (fun _ _ => 7)
      [("Alpha", { members := [("Ana", [])], skills := DEFAULT_SKILLS })]
      _ h2 (fun _ _ => Nat.le_of_sub_eq_zero rfl) (by decide)
  exact ⟨(C8_levels_bounded_and_overwrite _ h3).1,
    ((C8_levels_bounded_and_overwrite _ h3).2 "Python" 7 3 []).1⟩

/-! Validation of blank and empty names (claims C4 and C10). -/

/-- C4 counterexample: a whitespace-only team name is truthy in Python, so
`add_team " "` creates a team named `" "` and reports success instead of
an error; and whitespace-only member / skill input parses to no names and
reports success (not an error), so the claim fails for blank input. -/
theorem C4_counterexample :
    add_team " " [] =
      ([(" ", { members := [], skills := DEFAULT_SKILLS })], Msg.success) ∧
    add_members "T" " " [] = some ([], Msg.success) ∧
    add_skills "T" "Technical" " " [] = some ([], Msg.success) := by
  refine ⟨?_, ?_, ?_⟩ <;> decide

/-- C4 (amended): submitting the empty string as a team name, or as the
member / skill input, reports an error and leaves the session state
unchanged (for the team name, provided no team is actually named `""`,
which is true of every reachable state); whitespace-only input, however,
is not rejected: nonempty input whose parse yields no names reports
success while changing nothing. -/
theorem C4_empty_input_rejected (st : AppState) (tn cat input : String)
    (h0 : getKey? "" st = none) :
    add_team "" st = (st, Msg.error) ∧
    add_members tn "" st = some (st, Msg.error) ∧
    add_skills tn cat "" st = some (st, Msg.error) ∧
    (input ≠ "" → parseNames input = [] →
      add_members tn input st = some (st, Msg.success) ∧
      add_skills tn cat input st = some (st, Msg.success)) := by
  refine ⟨?_, ?_, ?_, ?_⟩
  · simp only [add_team]
    rw [if_neg (by rintro ⟨hne, -⟩; exact hne rfl),
      if_neg (by rw [h0]; simp)]
  · simp [add_members]
  · simp [add_skills]
  · intro hne hparse
    constructor
    · simp only [add_members]
      rw [if_neg hne]
      simp [hparse]
    · simp only [add_skills]
      rw [if_neg hne]
      simp [hparse]

/-- Witness for C4 at the empty state, team "T", category "Technical" and
the blank input `" "`. -/
theorem C4_witness :
    add_team "" [] = ([], Msg.error) ∧
    add_members "T" "" [] = some ([], Msg.error) ∧
    add_skills "T" "Technical" "" [] = some ([], Msg.error) ∧
    add_members "T" " " [] = some ([], Msg.success) ∧
    add_skills "T" "Technical" " " [] = some ([], Msg.success) := by
  have h := C4_empty_input_rejected [] "T" "Technical" " " (by decide)
  have h4 := h.2.2.2 (by decide) (by decide)
  exact ⟨h.1, h.2.1, h.2.2.1, h4.1, h4.2⟩

theorem addMemberNames_preserves (names : List String) (m : String)
    (comp : Competency) :
    ∀ (ms : Members), getKey? m ms = some comp →
      getKey? m (addMemberNames names ms) = some comp := by
  intro ms h
  refine foldl_preserve (fun ms2 => getKey? m ms2 = some comp) _ ?_ names ms h
  intro ms2 n hp
  by_cases hcond : n ≠ "" ∧ getKey? n ms2 = none
  · rw [if_pos hcond]
    exact getKey?_append_some hp
  · rw [if_neg hcond]
    exact hp

theorem addMemberNames_id (names : List String) :
    ∀ (ms : Members), (∀ n ∈ names, (getKey? n ms).isSome) →
      addMemberNames names ms = ms := by
  induction names with
  | nil => intro ms _; rfl
  | cons n rest ih =>
    intro ms h
    have hstep : addMemberNames (n :: rest) ms =
        addMemberNames rest
          (if n ≠ "" ∧ getKey? n ms = none then ms ++ [(n, [])] else ms) := by
      simp [addMemberNames]
    have hcond : ¬(n ≠ "" ∧ getKey? n ms = none) := by
      rintro ⟨-, hnone⟩
      have := h n (List.mem_cons_self _ _)
      rw [hnone] at this
      cases this
    rw [hstep, if_neg hcond]
    exact ih ms (fun n' hn' => h n' (List.mem_cons_of_mem _ hn'))

/-- C10: when `add_members` succeeds on a team that already contains a
member whose name is submitted again, that member's existing skill→level
mapping is preserved (not reset to empty), the team's skills and all
other teams are unchanged, and if every submitted name is already a
member the whole state is untouched. -/
theorem C10_add_existing_member_preserves (st st' : AppState)
    (tn input : String) (msg : Msg) (t : Team)
    (heq : add_members tn input st = some (st', msg))
    (ht : getKey? tn st = some t) :
    (∀ m comp, getKey? m t.members = some comp →
      (getKey? tn st').bind (fun t' => getKey? m t'.members) = some comp) ∧
    (getKey? tn st').map Team.skills = some t.skills ∧
    (∀ n, n ≠ tn → getKey? n st' = getKey? n st) ∧
    ((∀ n ∈ parseNames input, (getKey? n t.members).isSome) → st' = st) := by
  simp only [add_members] at heq
  by_cases h1 : input = ""
  · rw [if_pos h1] at heq
    obtain ⟨rfl, -⟩ : st = st' ∧ Msg.error = msg := by simpa using heq
    exact ⟨fun m comp hm => by rw [ht]; exact hm,
      by rw [ht]; rfl, fun n _ => rfl, fun _ => rfl⟩
  · rw [if_neg h1] at heq
    by_cases h2 : (parseNames input).isEmpty
    · rw [if_pos h2] at heq
      obtain ⟨rfl, -⟩ : st = st' ∧ Msg.success = msg := by simpa using heq
      exact ⟨fun m comp hm => by rw [ht]; exact hm,
        by rw [ht]; rfl, fun n _ => rfl, fun _ => rfl⟩
    · rw [if_neg h2] at heq
      rw [ht] at heq
      obtain ⟨hst, -⟩ :
          setKey tn { t with members := addMemberNames (parseNames input) t.members } st = st' ∧
            Msg.success = msg := by
        simpa using heq
      subst hst
      refine ⟨?_, ?_, ?_, ?_⟩
      · intro m comp hm
        rw [getKey?_setKey_self]
        exact addMemberNames_preserves (parseNames input) m comp t.members hm
      · rw [getKey?_setKey_self]
        rfl
      · intro n hn
        exact getKey?_setKey_ne _ _ hn
      · intro hall
        rw [addMemberNames_id (parseNames input) t.members hall]
        exact setKey_getKey?_eq ht

/-- Witness for C10: re-submitting "Ana" for team "T" keeps her recorded
Python level and the whole state unchanged. -/
theorem C10_witness :
    (getKey? "T"
        ([("T", { members := [("Ana", [("Python", 7)])],
                  skills := DEFAULT_SKILLS })] : AppState)).bind
      (fun t' => getKey? "Ana" t'.members) = some [("Python", 7)] ∧
    ([("T", { members := [("Ana", [("Python", 7)])],
              skills := DEFAULT_SKILLS })] : AppState) =
      [("T", { members := [("Ana", [("Python", 7)])],
               skills := DEFAULT_SKILLS })] := by
  have h := C10_add_existing_member_preserves
    [("T", { members := [("Ana", [("Python", 7)])], skills := DEFAULT_SKILLS })]
    [("T", { members := [("Ana", [("Python", 7)])], skills := DEFAULT_SKILLS })]
    "T" "Ana" Msg.success
    { members := [("Ana", [("Python", 7)])], skills := DEFAULT_SKILLS }
    (by decide) (by decide)
  exact ⟨h.1 "Ana" [("Python", 7)] (by decide), h.2.2.2 (by decide)⟩

/-! Export flattening and round-trip (claim C9). -/

theorem getKey?_eq_none_of_not_mem {β : Type} {k : String} :
    ∀ {l : List (String × β)}, k ∉ keysOf l → getKey? k l = none := by
  intro l
  induction l with
  | nil => intro _; rfl
  | cons e rest ih =>
    intro h
    simp only [keysOf, List.map_cons, List.mem_cons] at h
    push_neg at h
    have hne : ¬e.1 = k := fun he => h.1 he.symm
    simp only [getKey?, if_neg hne]
    exact ih (by simpa [keysOf] using h.2)

theorem countRows_compRows (tn mn tn' mn' s : String) :
    ∀ (comp : Competency), NodupKeys comp →
      countRows tn' mn' s (compRows tn mn comp) =
        if tn' = tn ∧ mn' = mn ∧ (getKey? s comp).isSome then 1 else 0 := by
  intro comp
  induction comp with
  | nil =>
    intro _
    simp [compRows, countRows, getKey?]
  | cons sl rest ih =>
    intro hnd
    obtain ⟨hnotin, hnd'⟩ : sl.1 ∉ keysOf rest ∧ NodupKeys rest := by
      simpa [NodupKeys, keysOf] using hnd
    have hrest := ih hnd'
    simp only [compRows, List.map_cons, countRows, List.countP_cons] at hrest ⊢
    by_cases h3 : sl.1 = s
    · subst h3
      have hnone : getKey? sl.1 rest = none :=
        getKey?_eq_none_of_not_mem hnotin
      rw [hnone] at hrest
      simp only [Option.isSome_none, and_false, if_false] at hrest
      rw [hrest]
      by_cases h1 : tn' = tn
      · subst h1
        by_cases h2 : mn' = mn
        · subst h2
          simp [rowMatch, getKey?]
        · have h2' : ¬mn = mn' := fun hh => h2 hh.symm
          simp [rowMatch, getKey?, h2, h2']
      · have h1' : ¬tn = tn' := fun hh => h1 hh.symm
        simp [rowMatch, getKey?, h1, h1']
    · have hget : getKey? s (sl :: rest) = getKey? s rest := by
        simp only [getKey?, if_neg h3]
      rw [hget, ← hrest]
      simp [rowMatch, h3]

theorem countRows_memberRows (tn tn' mn' s : String) :
    ∀ (ms : Members), NodupKeys ms → (∀ me ∈ ms, NodupKeys me.2) →
      countRows tn' mn' s (memberRows tn ms) =
        if tn' = tn ∧
            ((getKey? mn' ms).bind (fun comp => getKey? s comp)).isSome
        then 1 else 0 := by
  intro ms
  induction ms with
  | nil =>
    intro _ _
    simp [memberRows, countRows, getKey?]
  | cons me rest ih =>
    intro hnd hcs
    obtain ⟨hnotin, hnd'⟩ : me.1 ∉ keysOf rest ∧ NodupKeys rest := by
      simpa [NodupKeys, keysOf] using hnd
    have happ : memberRows tn (me :: rest) =
        compRows tn me.1 me.2 ++ memberRows tn rest := by
      simp [memberRows]
    rw [happ]
    simp only [countRows, List.countP_append]
    have hcomp := countRows_compRows tn me.1 tn' mn' s me.2
      (hcs me (List.mem_cons_self _ _))
    have hrest := ih hnd' (fun me' hme' => hcs me' (List.mem_cons_of_mem _ hme'))
    simp only [countRows] at hcomp hrest
    rw [hcomp, hrest]
    by_cases hm : mn' = me.1
    · have hget : getKey? mn' (me :: rest) = some me.2 := by
        simp [getKey?, hm.symm]
      have hnone : getKey? mn' rest = none := by
        rw [hm]
        exact getKey?_eq_none_of_not_mem hnotin
      rw [hget, hnone]
      simp only [Option.some_bind, Option.none_bind, Option.isSome_none]
      by_cases h1 : tn' = tn
      · simp [h1, hm]
      · simp [h1]
    · have hm' : ¬me.1 = mn' := fun hh => hm hh.symm
      have hget : getKey? mn' (me :: rest) = getKey? mn' rest := by
        simp only [getKey?, if_neg hm']
      rw [hget]
      simp [hm]

theorem countRows_export (tn' mn' s : String) :
    ∀ (st : AppState), WF st →
      countRows tn' mn' s (export_data st) =
        if (lookupLevel tn' mn' s st).isSome then 1 else 0 := by
  intro st
  induction st with
  | nil =>
    intro _
    simp [export_data, countRows, lookupLevel, getKey?]
  | cons te rest ih =>
    intro hwf
    obtain ⟨hnd, hteams⟩ := hwf
    obtain ⟨hnotin, hnd'⟩ : te.1 ∉ keysOf rest ∧ NodupKeys rest := by
      simpa [NodupKeys, keysOf] using hnd
    have happ : export_data (te :: rest) =
        memberRows te.1 te.2.members ++ export_data rest := by
      simp [export_data]
    rw [happ]
    simp only [countRows, List.countP_append]
    have hteam := countRows_memberRows te.1 tn' mn' s te.2.members
      (hteams te (List.mem_cons_self _ _)).1
      (hteams te (List.mem_cons_self _ _)).2
    have hrest := ih ⟨hnd', fun e he => hteams e (List.mem_cons_of_mem _ he)⟩
    simp only [countRows] at hteam hrest
    rw [hteam, hrest]
    by_cases h1 : tn' = te.1
    · have hget : getKey? tn' (te :: rest) = some te.2 := by
        simp [getKey?, h1.symm]
      have hnone : getKey? tn' rest = none := by
        rw [h1]
        exact getKey?_eq_none_of_not_mem hnotin
      simp only [lookupLevel, hget, hnone, Option.some_bind, Option.none_bind,
        Option.isSome_none]
      simp [h1]
    · have h1' : ¬te.1 = tn' := fun hh => h1 hh.symm
      have hget : getKey? tn' (te :: rest) = getKey? tn' rest := by
        simp only [getKey?, if_neg h1']
      simp only [lookupLevel, hget]
      simp [h1, lookupLevel]

theorem findRowLevel_append (tn' mn' s : String) (l₁ l₂ : List ExportRow) :
    findRowLevel tn' mn' s (l₁ ++ l₂) =
      (findRowLevel tn' mn' s l₁).or (findRowLevel tn' mn' s l₂) := by
  simp only [findRowLevel, List.find?_append]
  cases l₁.find? (rowMatch tn' mn' s) <;> simp

theorem findRowLevel_compRows (tn mn tn' mn' s : String) :
    ∀ (comp : Competency),
      findRowLevel tn' mn' s (compRows tn mn comp) =
        if tn' = tn ∧ mn' = mn then getKey? s comp else none := by
  intro comp
  induction comp with
  | nil => simp [findRowLevel, compRows, getKey?]
  | cons sl rest ih =>
    simp only [compRows, List.map_cons] at ih ⊢
    by_cases h1 : tn' = tn ∧ mn' = mn
    · by_cases h3 : sl.1 = s
      · have hmatch : rowMatch tn' mn' s
            { team := tn, member := mn, skill := sl.1,
              competency_level := sl.2 } = true := by
          simp [rowMatch, h1.1, h1.2, h3]
        simp only [findRowLevel, List.find?_cons_of_pos _ hmatch, Option.map_some]
        simp [getKey?, h3, h1]
      · have hmatch : ¬rowMatch tn' mn' s
            { team := tn, member := mn, skill := sl.1,
              competency_level := sl.2 } = true := by
          simp [rowMatch, h3]
        simp only [findRowLevel, List.find?_cons_of_neg _ hmatch]
        simp only [findRowLevel] at ih
        rw [ih]
        simp only [getKey?, if_neg h3]
    · have hmatch : ¬rowMatch tn' mn' s
          { team := tn, member := mn, skill := sl.1,
            competency_level := sl.2 } = true := by
        simp only [rowMatch, Bool.and_eq_true, beq_iff_eq]
        rintro ⟨⟨rfl, rfl⟩, -⟩
        exact h1 ⟨rfl, rfl⟩
      simp only [findRowLevel, List.find?_cons_of_neg _ hmatch]
      simp only [findRowLevel] at ih
      rw [ih]
      simp [h1]

theorem findRowLevel_memberRows (tn tn' mn' s : String) :
    ∀ (ms : Members), NodupKeys ms →
      findRowLevel tn' mn' s (memberRows tn ms) =
        if tn' = tn then (getKey? mn' ms).bind (fun comp => getKey? s comp)
        else none := by
  intro ms
  induction ms with
  | nil =>
    intro _
    simp [memberRows, findRowLevel, getKey?]
  | cons me rest ih =>
    intro hnd
    obtain ⟨hnotin, hnd'⟩ : me.1 ∉ keysOf rest ∧ NodupKeys rest := by
      simpa [NodupKeys, keysOf] using hnd
    have happ : memberRows tn (me :: rest) =
        compRows tn me.1 me.2 ++ memberRows tn rest := by
      simp [memberRows]
    rw [happ, findRowLevel_append, findRowLevel_compRows, ih hnd']
    by_cases hm : mn' = me.1
    · have hget : getKey? mn' (me :: rest) = some me.2 := by
        simp [getKey?, hm.symm]
      have hnone : getKey? mn' rest = none := by
        rw [hm]
        exact getKey?_eq_none_of_not_mem hnotin
      rw [hget, hnone]
      by_cases h1 : tn' = tn
      · simp only [if_pos (And.intro h1 hm), if_pos h1, Option.some_bind,
          Option.none_bind]
        cases getKey? s me.2 <;> simp [Option.or]
      · simp [h1, hm]
    · have hm' : ¬me.1 = mn' := fun hh => hm hh.symm
      have hget : getKey? mn' (me :: rest) = getKey? mn' rest := by
        simp only [getKey?, if_neg hm']
      rw [hget]
      by_cases h1 : tn' = tn <;> simp [h1, hm]

theorem findRowLevel_export (tn' mn' s : String) :
    ∀ (st : AppState), WF st →
      findRowLevel tn' mn' s (export_data st) = lookupLevel tn' mn' s st := by
  intro st
  induction st with
  | nil =>
    intro _
    simp [export_data, findRowLevel, lookupLevel, getKey?]
  | cons te rest ih =>
    intro hwf
    obtain ⟨hnd, hteams⟩ := hwf
    obtain ⟨hnotin, hnd'⟩ : te.1 ∉ keysOf rest ∧ NodupKeys rest := by
      simpa [NodupKeys, keysOf] using hnd
    have happ : export_data (te :: rest) =
        memberRows te.1 te.2.members ++ export_data rest := by
      simp [export_data]
    rw [happ, findRowLevel_append,
      findRowLevel_memberRows te.1 tn' mn' s te.2.members
        (hteams te (List.mem_cons_self _ _)).1,
      ih ⟨hnd', fun e he => hteams e (List.mem_cons_of_mem _ he)⟩]
    by_cases h1 : tn' = te.1
    · have hget : getKey? tn' (te :: rest) = some te.2 := by
        simp [getKey?, h1.symm]
      have hnone : getKey? tn' rest = none := by
        rw [h1]
        exact getKey?_eq_none_of_not_mem hnotin
      simp only [lookupLevel, hget, hnone, if_pos h1, Option.some_bind,
        Option.none_bind]
      cases (getKey? mn' te.2.members).bind (fun comp => getKey? s comp) <;>
        simp [Option.or]
    · have h1' : ¬te.1 = tn' := fun hh => h1 hh.symm
      have hget : getKey? tn' (te :: rest) = getKey? tn' rest := by
        simp only [getKey?, if_neg h1']
      simp only [lookupLevel, hget, if_neg h1]
      simp [lookupLevel]

/-- C9: export flattening emits exactly one record per (member, skill)
pair with a recorded level — count 1 for recorded pairs, count 0 for
unscored pairs — the flattened list is the concatenation, in team order,
of the member-order, recorded-skill-order rows of each team, and
re-grouping the rows by (team, member, skill) recovers exactly the
original sparse score mapping. -/
theorem C9_export_roundtrip (st : AppState) (hwf : WF st) (tn mn s : String) :
    countRows tn mn s (export_data st) =
      (if (lookupLevel tn mn s st).isSome then 1 else 0) ∧
    findRowLevel tn mn s (export_data st) = lookupLevel tn mn s st ∧
    ∀ (tname : String) (t : Team) (rest : AppState),
      export_data ((tname, t) :: rest) =
        memberRows tname t.members ++ export_data rest :=
  ⟨countRows_export tn mn s st hwf, findRowLevel_export tn mn s st hwf,
   fun tname t rest => by simp [export_data]⟩

/-- Witness for C9 on a two-team state: Ana's recorded Python level in
team "A" yields exactly one row that regroups to 7, and the unscored pair
(Ben, Python) yields no row. -/
theorem C9_witness :
    countRows "A" "Ana" "Python"
      (export_data
        [("A", { members := [("Ana", [("Python", 7), ("SQL", 2)]), ("Ben", [])],
                 skills := DEFAULT_SKILLS }),
         ("B", { members := [("Ana", [("Python", 9)])], skills := [] })]) = 1 ∧
    findRowLevel "A" "Ana" "Python"
      (export_data
        [("A", { members := [("Ana", [("Python", 7), ("SQL", 2)]), ("Ben", [])],
                 skills := DEFAULT_SKILLS }),
         ("B", { members := [("Ana", [("Python", 9)])], skills := [] })]) =
      some 7 ∧
    countRows "A" "Ben" "Python"
      (export_data
        [("A", { members := [("Ana", [("Python", 7), ("SQL", 2)]), ("Ben", [])],
                 skills := DEFAULT_SKILLS }),
         ("B", { members := [("Ana", [("Python", 9)])], skills := [] })]) = 0 := by
  refine ⟨?_, ?_, ?_⟩
  · rw [(C9_export_roundtrip
      [("A", { members := [("Ana", [("Python", 7), ("SQL", 2)]), ("Ben", [])],
               skills := DEFAULT_SKILLS }),
       ("B", { members := [("Ana", [("Python", 9)])], skills := [] })]
      (by decide) "A" "Ana" "Python").1]
    decide
  · rw [(C9_export_roundtrip
      [("A", { members := [("Ana", [("Python", 7), ("SQL", 2)]), ("Ben", [])],
               skills := DEFAULT_SKILLS }),
       ("B", { members := [("Ana", [("Python", 9)])], skills := [] })]
      (by decide) "A" "Ana" "Python").2.1]
    decide
  · rw [(C9_export_roundtrip
      [("A", { members := [("Ana", [("Python", 7), ("SQL", 2)]), ("Ben", [])],
               skills := DEFAULT_SKILLS }),
       ("B", { members := [("Ana", [("Python", 9)])], skills := [] })]
      (by decide) "A" "Ben" "Python").1]
    decide

end Scradar
